import Mathlib

/-!
Verification of the incident/change correlation engine (`solution.py`).

The development shallowly embeds the program's core:

* `raw_correlate` (solution.py lines 150-204): the sliding-window join over
  per-group, timestamp-sorted change and incident sequences, accumulating
  counts per (incident title, change title) pair.
* `classify_with_llm` (lines 61-125) and `load_cache` (lines 39-48): the
  classification collaborator with its persistent cache, with the external
  LLM call modelled as an oracle function returning `none` on failure.

Timestamps are modelled as integers (the unit is irrelevant: the code only
compares timestamps and subtracts a fixed window duration from them), and
the window duration is the integer `window` in the same unit.  Python dicts
are modelled as association lists with insert-or-replace update, which
preserves dict semantics (unique keys, insertion order).
-/

/-- An event row, as selected by `load_and_prepare`
(columns `account_id`, `service_id`, `title`, `timestamp`).
Change rows and incident rows have the same shape. -/
structure Event where
  account_id : String
  service_id : String
  title : String
  timestamp : Int
deriving DecidableEq

abbrev GroupKey := String × String

/-- The groupby key `(account_id, service_id)` used at solution.py:174-175. -/
def Event.gkey (e : Event) : GroupKey := (e.account_id, e.service_id)

abbrev PairKey := String × String

/-- The `results` defaultdict of `raw_correlate`, as an association list. -/
abbrev CorrelationTable := List (PairKey × Nat)

/-- Reading a count out of the table; absent keys read as 0
(the `defaultdict(int)` default). -/
def lookupCount (t : CorrelationTable) (p : PairKey) : Nat :=
  match t.find? (fun e => decide (e.1 = p)) with
  | some e => e.2
  | none => 0

/-- The key set of the table (the dict's keys). -/
def tableKeys (t : CorrelationTable) : List PairKey := t.map Prod.fst

/-- The statement `results[pair] += 1` on a `defaultdict(int)`:
increment the first entry for the key, or append the key with count 1. -/
def incr : CorrelationTable → PairKey → CorrelationTable
  | [], p => [(p, 1)]
  | e :: rest, p => if e.1 = p then (e.1, e.2 + 1) :: rest else e :: incr rest p

/-- Timestamp order on events. -/
def tsLE (a b : Event) : Prop := a.timestamp ≤ b.timestamp

instance : DecidableRel tsLE := fun a b => inferInstanceAs (Decidable (_ ≤ _))

instance : IsTotal Event tsLE := ⟨fun a b => Int.le_total a.timestamp b.timestamp⟩

instance : IsTrans Event tsLE := ⟨fun _ _ _ h1 h2 => le_trans h1 h2⟩

instance : IsRefl Event tsLE := ⟨fun a => le_refl a.timestamp⟩

/-- The per-group `sort_values("timestamp")` of solution.py:179-180, modelled
as an insertion sort by timestamp.  (pandas' default sort is an unstable
quicksort; which sorted permutation is used does not affect anything proved
here, since the join only compares timestamps against cutoffs.) -/
def sortByTs (evs : List Event) : List Event := List.insertionSort tsLE evs

/-- The distinct group keys of a stream, in first-occurrence order of the
groupby at solution.py:174-175. -/
def groupKeysOf (evs : List Event) : List GroupKey := (evs.map Event.gkey).dedup

/-- The rows of one group, in original row order (`get_group`). -/
def eventsOfGroup (k : GroupKey) (evs : List Event) : List Event :=
  evs.filter (fun e => decide (e.gkey = k))

/-- The keys processed by the join:
`common = set(grp_chg.groups) & set(grp_inc.groups)` (solution.py:177). -/
def commonKeys (changes incidents : List Event) : List GroupKey :=
  (groupKeysOf changes).filter (fun k => decide (k ∈ groupKeysOf incidents))

/-- The loop state of the inner loop of `raw_correlate` (solution.py:182-197):
the changes not yet admitted (those from `idx` on), the deque `dq` of
(timestamp, title) pairs currently in window, and the accumulated counts. -/
structure JoinState where
  pending : List Event
  dq : List (Int × String)
  results : CorrelationTable

/-- One iteration of `for _, irow in inc.iterrows()` (solution.py:186-197):
admit changes with timestamp `<= its` onto the tail of the deque, evict
entries with timestamp `< its - window` from its head, then bump the count
of `(irow.title, ctitle)` for each distinct title on the deque. -/
def stepIncident (window : Int) (st : JoinState) (irow : Event) : JoinState :=
  let its := irow.timestamp
  let admitted := st.pending.takeWhile (fun c => decide (c.timestamp ≤ its))
  let pending1 := st.pending.dropWhile (fun c => decide (c.timestamp ≤ its))
  let dq1 := st.dq ++ admitted.map (fun c => (c.timestamp, c.title))
  let cutoff := its - window
  let dq2 := dq1.dropWhile (fun e => decide (e.1 < cutoff))
  let uniq := (dq2.map Prod.snd).dedup
  { pending := pending1, dq := dq2,
    results := uniq.foldl (fun t ctitle => incr t (irow.title, ctitle)) st.results }

/-- The whole per-group loop body of solution.py:182-197, threading the
shared `results` table through. -/
def correlateGroup (window : Int) (chg inc : List Event) (tbl : CorrelationTable) :
    CorrelationTable :=
  (inc.foldl (stepIncident window) { pending := chg, dq := [], results := tbl }).results

/-- The `for key in common` loop of solution.py:178-197, over an explicit
key list (the Python set's iteration order is arbitrary; order independence
is proved below). -/
def groupFold (changes incidents : List Event) (window : Int) (ks : List GroupKey) :
    CorrelationTable :=
  ks.foldl
    (fun tbl k =>
      correlateGroup window (sortByTs (eventsOfGroup k changes))
        (sortByTs (eventsOfGroup k incidents)) tbl)
    []

/-- The function `raw_correlate` of solution.py:150-204.  `window` is the
`timedelta(minutes=window_minutes)` value in timestamp units. -/
def raw_correlate (changes incidents : List Event) (window : Int) : CorrelationTable :=
  groupFold changes incidents window (commonKeys changes incidents)

/-- Membership of a change event in the trailing window
`[its - window, its]` of an incident at time `its`. -/
def inWindow (its window : Int) (c : Event) : Prop :=
  its - window ≤ c.timestamp ∧ c.timestamp ≤ its

instance (its window : Int) (c : Event) : Decidable (inWindow its window c) :=
  inferInstanceAs (Decidable (_ ∧ _))

/-- Modelled from the spec: the brute-force reference of the
"Monotonic eviction correctness" property (spec section 8) — for an incident
at time `its`, rescan the group's whole change sequence and take the distinct
change titles having at least one event in the closed window
`[its - window, its]`. -/
def bruteTitles (chg : List Event) (its window : Int) : List String :=
  ((chg.filter (fun c => decide (inWindow its window c))).map Event.title).dedup

/-- Modelled from the spec: per-group brute-force recount — for each incident,
bump the count of `(incident title, C)` once per distinct in-window title `C`,
recomputed from scratch from the full change sequence. -/
def bruteGroup (window : Int) (chg inc : List Event) (tbl : CorrelationTable) :
    CorrelationTable :=
  inc.foldl
    (fun t irow =>
      (bruteTitles chg irow.timestamp window).foldl
        (fun t2 ctitle => incr t2 (irow.title, ctitle)) t)
    tbl

/-- Modelled from the spec: the brute-force reference correlator — same
grouping and aggregation as `raw_correlate`, but with the sliding window
recomputed by rescanning for every incident. -/
def bruteForceCorrelate (changes incidents : List Event) (window : Int) :
    CorrelationTable :=
  (commonKeys changes incidents).foldl
    (fun tbl k =>
      bruteGroup window (sortByTs (eventsOfGroup k changes))
        (sortByTs (eventsOfGroup k incidents)) tbl)
    []

/-- Modelled from the spec: the count a pair (I, C) should have — the number
of incident instances titled I whose trailing window contains at least one
change titled C in the same group, over all groups. -/
def specPairCount (changes incidents : List Event) (window : Int) (I C : String) : Nat :=
  incidents.countP
    (fun i =>
      decide (i.title = I) &&
        changes.any
          (fun c =>
            decide (c.gkey = i.gkey) && decide (c.title = C) &&
              decide (inWindow i.timestamp window c)))

/-- Equality of correlation tables as dictionaries: same count under every
key and the same key set (insertion order irrelevant, per the spec). -/
def tablesEquiv (t1 t2 : CorrelationTable) : Prop :=
  (∀ p, lookupCount t1 p = lookupCount t2 p) ∧
    (∀ p, p ∈ tableKeys t1 ↔ p ∈ tableKeys t2)

/-- Adding `n` to a key's count (append with `n` if absent). -/
def addCount : CorrelationTable → PairKey → Nat → CorrelationTable
  | [], p, n => [(p, n)]
  | e :: rest, p, n => if e.1 = p then (e.1, e.2 + n) :: rest else e :: addCount rest p n

/-- Folding one table into another, summing counts of identical keys. -/
def addTable (t1 t2 : CorrelationTable) : CorrelationTable :=
  t2.foldl (fun acc e => addCount acc e.1 e.2) t1

/-- Modelled from the spec: the Pair Aggregator operation
`merge(tables) -> CorrelationTable` (spec section 4.3) — the source has no
separate merge function (it accumulates all groups into one shared dict),
so the spec's exposed operation is modelled directly: sum counts for
identical PairKeys across the tables. -/
def mergeTables (ts : List CorrelationTable) : CorrelationTable := ts.foldl addTable []

/-- All counts stored in the table are strictly positive. -/
def allPositive (t : CorrelationTable) : Prop := ∀ e ∈ t, 0 < e.2

/-- An item passed to `classify_with_llm`: a bare title string, or an
(incident title, change title) pair. -/
abbrev Item := String ⊕ (String × String)

/-- The cache key built at solution.py:93-97: the string itself, or
`"{a} ||| {b}"` for a pair. -/
def itemKey : Item → String
  | Sum.inl s => s
  | Sum.inr p => p.1 ++ " ||| " ++ p.2

/-- The persistent classification cache: a flat string-to-label mapping;
a `none` label is Python's `None` (JSON `null`). -/
abbrev LlmCache := List (String × Option String)

/-- The three states a cache file can be in for `load_cache`:
absent, present but unparsable, or a well-formed mapping. -/
inductive CacheFile where
  | missing
  | corrupt (raw : String)
  | wellFormed (entries : LlmCache)

/-- The function `load_cache` of solution.py:39-48: a missing file and a
file whose contents fail to parse both load as the empty cache. -/
def load_cache : CacheFile → LlmCache
  | .missing => []
  | .corrupt _ => []
  | .wellFormed entries => entries

/-- Dict lookup in the cache (`key in cache` / `cache[key]`). -/
def cacheLookup (c : LlmCache) (k : String) : Option (Option String) :=
  (c.find? (fun e => decide (e.1 = k))).map Prod.snd

/-- Dict assignment `cache[key] = label`. -/
def cacheInsert : LlmCache → String → Option String → LlmCache
  | [], k, v => [(k, v)]
  | e :: rest, k, v => if e.1 = k then (k, v) :: rest else e :: cacheInsert rest k v

/-- The results dict of `classify_with_llm`, keyed by the original item. -/
abbrev ResultsMap := List (Item × Option String)

/-- Dict assignment `results[item] = label`. -/
def resultsInsert : ResultsMap → Item → Option String → ResultsMap
  | [], it, v => [(it, v)]
  | e :: rest, it, v => if e.1 = it then (it, v) :: rest else e :: resultsInsert rest it v

/-- Dict lookup `results[item]`. -/
def resultsLookup (r : ResultsMap) (it : Item) : Option (Option String) :=
  (r.find? (fun e => decide (e.1 = it))).map Prod.snd

/-- The loop state of `classify_with_llm`. -/
structure ClassifyState where
  cache : LlmCache
  results : ResultsMap

/-- One iteration of the item loop of solution.py:93-117.  The LLM call is
the oracle function; `oracle item = none` models the call raising (the
`except` branch sets `label = None`).  A cache hit is served without
consulting the oracle; a miss stores the oracle's answer in the cache. -/
def classifyStep (oracle : Item → Option String) (st : ClassifyState) (item : Item) :
    ClassifyState :=
  let key := itemKey item
  match cacheLookup st.cache key with
  | some lbl => { st with results := resultsInsert st.results item lbl }
  | none =>
    let label := oracle item
    { cache := cacheInsert st.cache key label,
      results := resultsInsert st.results item label }

/-- The function `classify_with_llm` of solution.py:61-125: load the cache,
classify every item (from cache or oracle), and return the results together
with the final cache as persisted by `save_cache` at solution.py:119. -/
def classify_with_llm (items : List Item) (oracle : Item → Option String)
    (cacheFile : CacheFile) : ResultsMap × LlmCache :=
  let final := items.foldl (classifyStep oracle) { cache := load_cache cacheFile, results := [] }
  (final.results, final.cache)

/-- The accepted set built by `filter_noise` (solution.py:251, 263-265):
the items whose label is exactly the string MEANINGFUL. -/
def meaningfulSet (r : ResultsMap) : List Item :=
  (r.filter (fun e => decide (e.2 = some ("MEANINGFUL")))).map Prod.fst

/-- The deque contents determined by a reference time `tp`: the (timestamp,
title) pairs of the changes lying in the window `[tp - window, tp]`.  This is
the loop invariant value of `dq` after processing an incident at time `tp`. -/
def windowList (chg : List Event) (window tp : Int) : List (Int × String) :=
  (chg.filter (fun c => decide (inWindow tp window c))).map
    (fun c => (c.timestamp, c.title))

/-- Total count stored for a key, summing over duplicate entries (equal to
`lookupCount` on tables with unique keys). -/
def sumCounts : CorrelationTable → PairKey → Nat
  | [], _ => 0
  | e :: rest, p => (if e.1 = p then e.2 else 0) + sumCounts rest p

/-- The per-incident contribution test used in counting arguments: the
incident is titled `q.1` and the title `q.2` is among the distinct in-window
change titles of its group. -/
def contributes (chg : List Event) (window : Int) (q : PairKey) (i : Event) : Bool :=
  decide (i.title = q.1) && decide (q.2 ∈ bruteTitles chg i.timestamp window)

/-- The group-free form of the contribution test, looking the change stream
up by the incident's own group key. -/
def contributesSelf (changes : List Event) (window : Int) (q : PairKey) (i : Event) :
    Bool :=
  decide (i.title = q.1) &&
    changes.any
      (fun c =>
        decide (c.gkey = i.gkey) && decide (c.title = q.2) &&
          decide (inWindow i.timestamp window c))

/-! ### Basic lemmas about tables and counting -/

theorem bool_eq_of_iff {a b : Bool} (h : a = true ↔ b = true) : a = b := by
  cases a <;> cases b <;> simp_all


theorem lookupCount_nil (p : PairKey) : lookupCount [] p = 0 := rfl

theorem tableKeys_cons (e : PairKey × Nat) (t : CorrelationTable) :
    tableKeys (e :: t) = e.1 :: tableKeys t := rfl

theorem lookupCount_cons (e : PairKey × Nat) (t : CorrelationTable) (p : PairKey) :
    lookupCount (e :: t) p = if e.1 = p then e.2 else lookupCount t p := by
  by_cases h : e.1 = p
  · rw [if_pos h]
    unfold lookupCount
    rw [List.find?_cons_of_pos _ (by simpa using h)]
  · rw [if_neg h]
    unfold lookupCount
    rw [List.find?_cons_of_neg _ (by simpa using h)]

theorem incr_nil (p : PairKey) : incr [] p = [(p, 1)] := rfl

theorem incr_cons_hit {e : PairKey × Nat} {p : PairKey} (rest : CorrelationTable)
    (he : e.1 = p) : incr (e :: rest) p = (e.1, e.2 + 1) :: rest := by
  simp [incr, he]

theorem incr_cons_miss {e : PairKey × Nat} {p : PairKey} (rest : CorrelationTable)
    (he : ¬e.1 = p) : incr (e :: rest) p = e :: incr rest p := by
  simp [incr, he]

theorem lookupCount_incr (t : CorrelationTable) (p q : PairKey) :
    lookupCount (incr t p) q = if q = p then lookupCount t q + 1 else lookupCount t q := by
  induction t with
  | nil =>
    rw [incr_nil, lookupCount_cons, lookupCount_nil]
    by_cases h : q = p
    · subst h; simp
    · rw [if_neg h, if_neg (fun hh : p = q => h hh.symm)]
  | cons e rest ih =>
    by_cases he : e.1 = p
    · rw [incr_cons_hit rest he, lookupCount_cons, lookupCount_cons]
      by_cases hq : q = p
      · subst hq
        rw [if_pos rfl, if_pos he, if_pos he]
      · have h1 : ¬e.1 = q := fun hh => hq (hh.symm.trans he)
        rw [if_neg hq, if_neg h1, if_neg h1]
    · rw [incr_cons_miss rest he, lookupCount_cons, lookupCount_cons, ih]
      by_cases hq : e.1 = q
      · have hqp : ¬q = p := fun hh => he (hq.trans hh)
        rw [if_pos hq, if_neg hqp, if_pos hq]
      · rw [if_neg hq, if_neg hq]

theorem mem_tableKeys_incr (t : CorrelationTable) (p q : PairKey) :
    q ∈ tableKeys (incr t p) ↔ q ∈ tableKeys t ∨ q = p := by
  induction t with
  | nil => simp [incr_nil, tableKeys]
  | cons e rest ih =>
    by_cases he : e.1 = p
    · rw [incr_cons_hit rest he, tableKeys_cons, tableKeys_cons]
      simp only [List.mem_cons]
      constructor
      · rintro (h | h)
        · exact Or.inl (Or.inl h)
        · exact Or.inl (Or.inr h)
      · rintro ((h | h) | h)
        · exact Or.inl h
        · exact Or.inr h
        · exact Or.inl (h.trans he.symm)
    · rw [incr_cons_miss rest he, tableKeys_cons, tableKeys_cons]
      simp only [List.mem_cons, ih]
      tauto

theorem allPositive_nil : allPositive [] := by intro e he; cases he

theorem allPositive_incr {t : CorrelationTable} (h : allPositive t) (p : PairKey) :
    allPositive (incr t p) := by
  induction t with
  | nil =>
    intro x hx
    rw [incr_nil] at hx
    obtain rfl := List.mem_singleton.mp hx
    simp
  | cons e rest ih =>
    intro x hx
    by_cases he : e.1 = p
    · rw [incr_cons_hit rest he] at hx
      rcases List.mem_cons.mp hx with rfl | hx
      · simp
      · exact h x (List.mem_cons_of_mem _ hx)
    · rw [incr_cons_miss rest he] at hx
      rcases List.mem_cons.mp hx with rfl | hx
      · exact h x (List.mem_cons_self _ _)
      · exact ih (fun y hy => h y (List.mem_cons_of_mem _ hy)) x hx

theorem mem_tableKeys_iff_pos {t : CorrelationTable} (h : allPositive t) (p : PairKey) :
    p ∈ tableKeys t ↔ 0 < lookupCount t p := by
  induction t with
  | nil => simp [tableKeys, lookupCount_nil]
  | cons e rest ih =>
    rw [lookupCount_cons, tableKeys_cons]
    by_cases he : e.1 = p
    · rw [if_pos he]
      constructor
      · intro _
        exact h e (List.mem_cons_self _ _)
      · intro _
        exact List.mem_cons.mpr (Or.inl he.symm)
    · rw [if_neg he, List.mem_cons,
        ← ih (fun y hy => h y (List.mem_cons_of_mem _ hy))]
      constructor
      · rintro (h1 | h1)
        · exact absurd h1.symm he
        · exact h1
      · exact Or.inr

theorem lookupCount_foldIncr (ttl : String) (ts : List String) (hnd : ts.Nodup)
    (tbl : CorrelationTable) (q : PairKey) :
    lookupCount (ts.foldl (fun t c => incr t (ttl, c)) tbl) q
      = lookupCount tbl q + (if q.1 = ttl ∧ q.2 ∈ ts then 1 else 0) := by
  induction ts generalizing tbl with
  | nil => simp
  | cons c rest ih =>
    obtain ⟨hc, hrest⟩ := List.nodup_cons.mp hnd
    rw [List.foldl_cons, ih hrest, lookupCount_incr]
    by_cases hq : q = (ttl, c)
    · subst hq
      rw [if_pos rfl]
      have h1 : ¬((ttl, c).1 = ttl ∧ (ttl, c).2 ∈ rest) := by
        rintro ⟨-, hmem⟩
        exact hc hmem
      have h2 : (ttl, c).1 = ttl ∧ (ttl, c).2 ∈ c :: rest := ⟨rfl, by simp⟩
      rw [if_neg h1, if_pos h2]
    · rw [if_neg hq]
      have hiff : (q.1 = ttl ∧ q.2 ∈ rest) ↔ (q.1 = ttl ∧ q.2 ∈ c :: rest) := by
        constructor
        · rintro ⟨h1, h2⟩
          exact ⟨h1, List.mem_cons_of_mem _ h2⟩
        · rintro ⟨h1, h2⟩
          rcases List.mem_cons.mp h2 with h3 | h3
          · exact absurd (Prod.ext h1 h3) hq
          · exact ⟨h1, h3⟩
      by_cases hin : q.1 = ttl ∧ q.2 ∈ rest
      · rw [if_pos hin, if_pos (hiff.mp hin)]
      · rw [if_neg hin, if_neg (fun hh => hin (hiff.mpr hh))]

theorem mem_tableKeys_foldIncr (ttl : String) (ts : List String)
    (tbl : CorrelationTable) (q : PairKey) :
    q ∈ tableKeys (ts.foldl (fun t c => incr t (ttl, c)) tbl)
      ↔ q ∈ tableKeys tbl ∨ (q.1 = ttl ∧ q.2 ∈ ts) := by
  induction ts generalizing tbl with
  | nil => simp
  | cons c rest ih =>
    rw [List.foldl_cons, ih, mem_tableKeys_incr]
    constructor
    · rintro ((h | h) | h)
      · exact Or.inl h
      · subst h
        exact Or.inr ⟨rfl, by simp⟩
      · exact Or.inr ⟨h.1, List.mem_cons_of_mem _ h.2⟩
    · rintro (h | ⟨h1, h2⟩)
      · exact Or.inl (Or.inl h)
      · rcases List.mem_cons.mp h2 with h3 | h3
        · exact Or.inl (Or.inr (Prod.ext h1 h3))
        · exact Or.inr ⟨h1, h3⟩

theorem allPositive_foldIncr (ttl : String) (ts : List String) {tbl : CorrelationTable}
    (h : allPositive tbl) :
    allPositive (ts.foldl (fun t c => incr t (ttl, c)) tbl) := by
  induction ts generalizing tbl with
  | nil => exact h
  | cons c rest ih => exact ih (allPositive_incr h (ttl, c))

/-! ### Lemmas about scans of timestamp-sorted lists -/

theorem sorted_takeWhile_le {α : Type} (f : α → Int) (t : Int) (l : List α)
    (h : l.Pairwise (fun a b => f a ≤ f b)) :
    l.takeWhile (fun a => decide (f a ≤ t)) = l.filter (fun a => decide (f a ≤ t)) := by
  induction l with
  | nil => rfl
  | cons a l ih =>
    obtain ⟨hab, hl⟩ := List.pairwise_cons.mp h
    by_cases ha : f a ≤ t
    · have hd : decide (f a ≤ t) = true := by simpa using ha
      simp [List.takeWhile_cons, List.filter_cons, hd, ih hl]
    · have hd : decide (f a ≤ t) = false := by simpa using ha
      simp only [List.takeWhile_cons, List.filter_cons, hd, Bool.false_eq_true,
        if_false]
      rw [eq_comm, List.filter_eq_nil_iff]
      intro x hx
      have := hab x hx
      simp only [decide_eq_true_eq]
      omega

theorem sorted_dropWhile_le {α : Type} (f : α → Int) (t : Int) (l : List α)
    (h : l.Pairwise (fun a b => f a ≤ f b)) :
    l.dropWhile (fun a => decide (f a ≤ t)) = l.filter (fun a => decide (t < f a)) := by
  induction l with
  | nil => rfl
  | cons a l ih =>
    obtain ⟨hab, hl⟩ := List.pairwise_cons.mp h
    by_cases ha : f a ≤ t
    · have hd : decide (f a ≤ t) = true := by simpa using ha
      have hd2 : decide (t < f a) = false := by simp; omega
      simp [List.dropWhile_cons, List.filter_cons, hd, hd2, ih hl]
    · have hd : decide (f a ≤ t) = false := by simpa using ha
      have hd2 : decide (t < f a) = true := by simp; omega
      simp only [List.dropWhile_cons, List.filter_cons, hd, hd2, Bool.false_eq_true,
        if_false, if_true]
      congr 1
      rw [eq_comm, List.filter_eq_self]
      intro x hx
      have := hab x hx
      simp only [decide_eq_true_eq]
      omega

theorem sorted_dropWhile_lt {α : Type} (f : α → Int) (t : Int) (l : List α)
    (h : l.Pairwise (fun a b => f a ≤ f b)) :
    l.dropWhile (fun a => decide (f a < t)) = l.filter (fun a => decide (t ≤ f a)) := by
  induction l with
  | nil => rfl
  | cons a l ih =>
    obtain ⟨hab, hl⟩ := List.pairwise_cons.mp h
    by_cases ha : f a < t
    · have hd : decide (f a < t) = true := by simpa using ha
      have hd2 : decide (t ≤ f a) = false := by simp; omega
      simp [List.dropWhile_cons, List.filter_cons, hd, hd2, ih hl]
    · have hd : decide (f a < t) = false := by simpa using ha
      have hd2 : decide (t ≤ f a) = true := by simp; omega
      simp only [List.dropWhile_cons, List.filter_cons, hd, hd2, Bool.false_eq_true,
        if_false, if_true]
      congr 1
      rw [eq_comm, List.filter_eq_self]
      intro x hx
      have := hab x hx
      simp only [decide_eq_true_eq]
      omega

theorem sorted_filter_split {α : Type} (f : α → Int) (tp : Int) (l : List α)
    (h : l.Pairwise (fun a b => f a ≤ f b)) :
    l = l.filter (fun a => decide (f a ≤ tp)) ++ l.filter (fun a => decide (tp < f a)) := by
  conv_lhs => rw [← List.takeWhile_append_dropWhile
    (p := fun a => decide (f a ≤ tp)) (l := l)]
  rw [sorted_takeWhile_le f tp l h, sorted_dropWhile_le f tp l h]

/-! ### The sliding-window invariant -/

theorem pairwise_sortByTs (l : List Event) :
    (sortByTs l).Pairwise (fun a b => a.timestamp ≤ b.timestamp) :=
  List.sorted_insertionSort tsLE l

theorem perm_sortByTs (l : List Event) : (sortByTs l).Perm l :=
  List.perm_insertionSort tsLE l

theorem stepIncident_inv (w tp : Int) (chg : List Event)
    (hc : chg.Pairwise (fun a b => a.timestamp ≤ b.timestamp))
    (tbl : CorrelationTable) (irow : Event) (htp : tp ≤ irow.timestamp) :
    stepIncident w
        { pending := chg.filter (fun c => decide (tp < c.timestamp)),
          dq := windowList chg w tp, results := tbl } irow
      = { pending := chg.filter (fun c => decide (irow.timestamp < c.timestamp)),
          dq := windowList chg w irow.timestamp,
          results := (bruteTitles chg irow.timestamp w).foldl
              (fun t c => incr t (irow.title, c)) tbl } := by
  have hpend : (chg.filter (fun c => decide (tp < c.timestamp))).Pairwise
      (fun a b : Event => a.timestamp ≤ b.timestamp) := hc.filter _
  have hadm : (chg.filter (fun c => decide (tp < c.timestamp))).takeWhile
        (fun c => decide (c.timestamp ≤ irow.timestamp))
      = chg.filter (fun c =>
          decide (c.timestamp ≤ irow.timestamp) && decide (tp < c.timestamp)) := by
    rw [sorted_takeWhile_le Event.timestamp _ _ hpend, List.filter_filter]
  have hpend1 : (chg.filter (fun c => decide (tp < c.timestamp))).dropWhile
        (fun c => decide (c.timestamp ≤ irow.timestamp))
      = chg.filter (fun c => decide (irow.timestamp < c.timestamp)) := by
    rw [sorted_dropWhile_le Event.timestamp _ _ hpend, List.filter_filter]
    apply List.filter_congr
    intro c _
    apply bool_eq_of_iff
    simp only [Bool.and_eq_true, decide_eq_true_eq]
    omega
  have hsorted : (windowList chg w tp
        ++ (chg.filter (fun c =>
              decide (c.timestamp ≤ irow.timestamp) && decide (tp < c.timestamp))).map
            (fun c => (c.timestamp, c.title))).Pairwise
      (fun a b : Int × String => a.1 ≤ b.1) := by
    rw [List.pairwise_append]
    refine ⟨?_, ?_, ?_⟩
    · exact (hc.filter _).map _ (fun a b h => h)
    · exact (hc.filter _).map _ (fun a b h => h)
    · intro x hx y hy
      simp only [windowList, List.mem_map, List.mem_filter, Bool.and_eq_true,
        decide_eq_true_eq, inWindow] at hx hy
      obtain ⟨c, ⟨-, hc1⟩, rfl⟩ := hx
      obtain ⟨d, ⟨-, hd1⟩, rfl⟩ := hy
      simp only
      omega
  have h1 : (windowList chg w tp).filter (fun e => decide (irow.timestamp - w ≤ e.1))
      = (chg.filter (fun c =>
          decide (inWindow irow.timestamp w c) && decide (c.timestamp ≤ tp))).map
        (fun c => (c.timestamp, c.title)) := by
    unfold windowList
    rw [List.filter_map, List.filter_filter]
    congr 1
    apply List.filter_congr
    intro c _
    apply bool_eq_of_iff
    simp only [Bool.and_eq_true, decide_eq_true_eq, Function.comp, inWindow]
    omega
  have h2 : ((chg.filter (fun c =>
          decide (c.timestamp ≤ irow.timestamp) && decide (tp < c.timestamp))).map
        (fun c => (c.timestamp, c.title))).filter
        (fun e => decide (irow.timestamp - w ≤ e.1))
      = (chg.filter (fun c =>
          decide (inWindow irow.timestamp w c) && decide (tp < c.timestamp))).map
        (fun c => (c.timestamp, c.title)) := by
    rw [List.filter_map, List.filter_filter]
    congr 1
    apply List.filter_congr
    intro c _
    apply bool_eq_of_iff
    simp only [Bool.and_eq_true, decide_eq_true_eq, Function.comp, inWindow]
    omega
  have h3 : chg.filter (fun c => decide (inWindow irow.timestamp w c))
      = chg.filter (fun c =>
          decide (inWindow irow.timestamp w c) && decide (c.timestamp ≤ tp))
        ++ chg.filter (fun c =>
            decide (inWindow irow.timestamp w c) && decide (tp < c.timestamp)) := by
    have hs := sorted_filter_split Event.timestamp tp
      (chg.filter (fun c => decide (inWindow irow.timestamp w c))) (hc.filter _)
    rw [List.filter_filter, List.filter_filter] at hs
    rw [hs]
    congr 1 <;>
      · apply List.filter_congr
        intro c _
        apply bool_eq_of_iff
        simp only [Bool.and_eq_true, decide_eq_true_eq]
        tauto
  have hdq2 : (windowList chg w tp
        ++ (chg.filter (fun c =>
              decide (c.timestamp ≤ irow.timestamp) && decide (tp < c.timestamp))).map
            (fun c => (c.timestamp, c.title))).dropWhile
        (fun e => decide (e.1 < irow.timestamp - w))
      = windowList chg w irow.timestamp := by
    rw [sorted_dropWhile_lt Prod.fst _ _ hsorted, List.filter_append, h1, h2,
      ← List.map_append, ← h3]
    rfl
  have huniq : ((windowList chg w irow.timestamp).map Prod.snd).dedup
      = bruteTitles chg irow.timestamp w := by
    unfold windowList bruteTitles
    rw [List.map_map]
    rfl
  simp only [stepIncident]
  rw [hadm, hpend1, hdq2, huniq]

theorem correlate_inv (w : Int) (chg : List Event)
    (hc : chg.Pairwise (fun a b => a.timestamp ≤ b.timestamp)) :
    ∀ inc : List Event, inc.Pairwise (fun a b => a.timestamp ≤ b.timestamp) →
      ∀ tp : Int, (∀ i ∈ inc, tp ≤ i.timestamp) → ∀ tbl : CorrelationTable,
        (inc.foldl (stepIncident w)
            { pending := chg.filter (fun c => decide (tp < c.timestamp)),
              dq := windowList chg w tp, results := tbl }).results
          = bruteGroup w chg inc tbl := by
  intro inc
  induction inc with
  | nil =>
    intro _ tp _ tbl
    rfl
  | cons i rest ih =>
    intro hinc tp htp tbl
    obtain ⟨hi, hrest⟩ := List.pairwise_cons.mp hinc
    rw [List.foldl_cons,
      stepIncident_inv w tp chg hc tbl i (htp i (List.mem_cons_self _ _)),
      ih hrest i.timestamp (fun j hj => hi j hj) _]
    rfl

theorem foldl_min_le (l : List Int) (a : Int) :
    l.foldl min a ≤ a ∧ ∀ x ∈ l, l.foldl min a ≤ x := by
  induction l generalizing a with
  | nil => exact ⟨le_refl a, by simp⟩
  | cons b t ih =>
    constructor
    · calc t.foldl min (min a b) ≤ min a b := (ih (min a b)).1
        _ ≤ a := min_le_left _ _
    · intro x hx
      rcases List.mem_cons.mp hx with rfl | hx
      · calc t.foldl min (min a x) ≤ min a x := (ih _).1
          _ ≤ x := min_le_right _ _
      · exact (ih (min a b)).2 x hx

theorem correlateGroup_eq_bruteGroup (w : Int) (chg inc : List Event)
    (tbl : CorrelationTable)
    (hc : chg.Pairwise (fun a b => a.timestamp ≤ b.timestamp))
    (hi : inc.Pairwise (fun a b => a.timestamp ≤ b.timestamp)) :
    correlateGroup w chg inc tbl = bruteGroup w chg inc tbl := by
  have hm := foldl_min_le ((chg ++ inc).map Event.timestamp) 0
  have hbound : ∀ e ∈ chg ++ inc,
      ((chg ++ inc).map Event.timestamp).foldl min 0 - 1 < e.timestamp := by
    intro e he
    have := hm.2 e.timestamp (List.mem_map.mpr ⟨e, he, rfl⟩)
    omega
  have h1 : chg.filter (fun c =>
      decide (((chg ++ inc).map Event.timestamp).foldl min 0 - 1 < c.timestamp)) = chg := by
    rw [List.filter_eq_self]
    intro c hcmem
    simpa using hbound c (List.mem_append.mpr (Or.inl hcmem))
  have h2 : windowList chg w (((chg ++ inc).map Event.timestamp).foldl min 0 - 1) = [] := by
    unfold windowList
    rw [show chg.filter (fun c =>
        decide (inWindow (((chg ++ inc).map Event.timestamp).foldl min 0 - 1) w c)) = [] by
      rw [List.filter_eq_nil_iff]
      intro c hcmem
      have := hbound c (List.mem_append.mpr (Or.inl hcmem))
      simp only [decide_eq_true_eq, inWindow]
      omega]
    rfl
  have h3 : ∀ i ∈ inc, ((chg ++ inc).map Event.timestamp).foldl min 0 - 1 ≤ i.timestamp := by
    intro i hLmem
    have := hbound i (List.mem_append.mpr (Or.inr hLmem))
    omega
  unfold correlateGroup
  conv_lhs => rw [← h1, ← h2]
  exact correlate_inv w chg hc inc hi _ h3 tbl

theorem foldl_congr_mem {α β : Type} (l : List α) (f g : β → α → β) (b : β)
    (h : ∀ a ∈ l, ∀ acc, f acc a = g acc a) : l.foldl f b = l.foldl g b := by
  induction l generalizing b with
  | nil => rfl
  | cons a t ih =>
    rw [List.foldl_cons, List.foldl_cons, h a (List.mem_cons_self _ _) b]
    exact ih _ (fun x hx acc => h x (List.mem_cons_of_mem _ hx) acc)

theorem raw_eq_brute (changes incidents : List Event) (w : Int) :
    raw_correlate changes incidents w = bruteForceCorrelate changes incidents w := by
  unfold raw_correlate groupFold bruteForceCorrelate
  apply foldl_congr_mem
  intro k _ acc
  exact correlateGroup_eq_bruteGroup w _ _ acc (pairwise_sortByTs _) (pairwise_sortByTs _)

/-! ### Counting the contributions of groups and incidents -/

theorem lookupCount_bruteGroup (w : Int) (chg inc : List Event)
    (tbl : CorrelationTable) (q : PairKey) :
    lookupCount (bruteGroup w chg inc tbl) q
      = lookupCount tbl q + inc.countP (contributes chg w q) := by
  induction inc generalizing tbl with
  | nil => simp [bruteGroup]
  | cons i rest ih =>
    rw [show bruteGroup w chg (i :: rest) tbl
        = bruteGroup w chg rest
            ((bruteTitles chg i.timestamp w).foldl (fun t c => incr t (i.title, c)) tbl)
      from rfl]
    have hnd : (bruteTitles chg i.timestamp w).Nodup := by
      unfold bruteTitles
      exact List.nodup_dedup _
    rw [ih, lookupCount_foldIncr i.title (bruteTitles chg i.timestamp w) hnd tbl q,
      List.countP_cons]
    have heq : (contributes chg w q i = true)
        ↔ (q.1 = i.title ∧ q.2 ∈ bruteTitles chg i.timestamp w) := by
      unfold contributes
      simp only [Bool.and_eq_true, decide_eq_true_eq]
      constructor
      · rintro ⟨h1, h2⟩; exact ⟨h1.symm, h2⟩
      · rintro ⟨h1, h2⟩; exact ⟨h1.symm, h2⟩
    by_cases h : q.1 = i.title ∧ q.2 ∈ bruteTitles chg i.timestamp w
    · rw [if_pos h, if_pos (heq.mpr h)]
      omega
    · rw [if_neg h, if_neg (fun hh => h (heq.mp hh))]
      omega

theorem allPositive_stepIncident (w : Int) (st : JoinState) (i : Event)
    (h : allPositive st.results) : allPositive (stepIncident w st i).results := by
  simp only [stepIncident]
  exact allPositive_foldIncr _ _ h

theorem allPositive_correlateGroup (w : Int) (chg inc : List Event)
    {tbl : CorrelationTable} (h : allPositive tbl) :
    allPositive (correlateGroup w chg inc tbl) := by
  unfold correlateGroup
  suffices h2 : ∀ st : JoinState, allPositive st.results →
      allPositive ((inc.foldl (stepIncident w) st).results) by
    exact h2 _ h
  induction inc with
  | nil => intro st hst; exact hst
  | cons i rest ih =>
    intro st hst
    rw [List.foldl_cons]
    exact ih _ (allPositive_stepIncident w st i hst)

theorem allPositive_groupFold (changes incidents : List Event) (w : Int)
    (ks : List GroupKey) : allPositive (groupFold changes incidents w ks) := by
  unfold groupFold
  suffices h2 : ∀ tbl : CorrelationTable, allPositive tbl →
      allPositive (ks.foldl (fun tbl k =>
        correlateGroup w (sortByTs (eventsOfGroup k changes))
          (sortByTs (eventsOfGroup k incidents)) tbl) tbl) by
    exact h2 [] allPositive_nil
  induction ks with
  | nil => intro tbl h; exact h
  | cons k rest ih =>
    intro tbl h
    rw [List.foldl_cons]
    exact ih _ (allPositive_correlateGroup _ _ _ h)

theorem lookupCount_groupFold (changes incidents : List Event) (w : Int)
    (q : PairKey) (ks : List GroupKey) :
    lookupCount (groupFold changes incidents w ks) q
      = (ks.map (fun k => (sortByTs (eventsOfGroup k incidents)).countP
          (contributes (sortByTs (eventsOfGroup k changes)) w q))).sum := by
  unfold groupFold
  suffices h2 : ∀ tbl : CorrelationTable,
      lookupCount (ks.foldl (fun tbl k =>
          correlateGroup w (sortByTs (eventsOfGroup k changes))
            (sortByTs (eventsOfGroup k incidents)) tbl) tbl) q
        = lookupCount tbl q
          + (ks.map (fun k => (sortByTs (eventsOfGroup k incidents)).countP
              (contributes (sortByTs (eventsOfGroup k changes)) w q))).sum by
    rw [h2 [], lookupCount_nil]
    omega
  induction ks with
  | nil => intro tbl; simp
  | cons k rest ih =>
    intro tbl
    rw [List.foldl_cons,
      correlateGroup_eq_bruteGroup _ _ _ _ (pairwise_sortByTs _) (pairwise_sortByTs _),
      ih, lookupCount_bruteGroup, List.map_cons, List.sum_cons]
    omega

theorem mem_bruteTitles (chg : List Event) (its w : Int) (C : String) :
    C ∈ bruteTitles chg its w ↔ ∃ c ∈ chg, c.title = C ∧ inWindow its w c := by
  unfold bruteTitles
  rw [List.mem_dedup]
  simp only [List.mem_map, List.mem_filter, decide_eq_true_eq]
  constructor
  · rintro ⟨c, ⟨h1, h2⟩, h3⟩
    exact ⟨c, h1, h3, h2⟩
  · rintro ⟨c, h1, h2, h3⟩
    exact ⟨c, ⟨h1, h3⟩, h2⟩

theorem countP_group_eq (changes incidents : List Event) (w : Int) (q : PairKey)
    (k : GroupKey) :
    (sortByTs (eventsOfGroup k incidents)).countP
        (contributes (sortByTs (eventsOfGroup k changes)) w q)
      = incidents.countP (fun i => contributesSelf changes w q i && decide (i.gkey = k)) := by
  rw [(perm_sortByTs (eventsOfGroup k incidents)).countP_eq]
  unfold eventsOfGroup
  rw [List.countP_filter]
  apply List.countP_congr
  intro i hi
  unfold contributes contributesSelf
  simp only [Bool.and_eq_true, decide_eq_true_eq, List.any_eq_true]
  constructor
  · rintro ⟨⟨h1, h2⟩, hk⟩
    refine ⟨⟨h1, ?_⟩, hk⟩
    rw [mem_bruteTitles] at h2
    obtain ⟨c, hcmem, hct, hcw⟩ := h2
    rw [(perm_sortByTs _).mem_iff] at hcmem
    rw [List.mem_filter] at hcmem
    obtain ⟨hcmem, hck⟩ := hcmem
    simp only [decide_eq_true_eq] at hck
    refine ⟨c, hcmem, ⟨⟨?_, hct⟩, hcw⟩⟩
    rw [hck, hk]
  · rintro ⟨⟨h1, c, hcmem, ⟨⟨hcg, hct⟩, hcw⟩⟩, hk⟩
    refine ⟨⟨h1, ?_⟩, hk⟩
    rw [mem_bruteTitles]
    refine ⟨c, ?_, hct, hcw⟩
    rw [(perm_sortByTs _).mem_iff]
    rw [List.mem_filter]
    refine ⟨hcmem, ?_⟩
    simp only [decide_eq_true_eq]
    rw [hcg, hk]

theorem countP_or_disjoint {α : Type} (l : List α) (p q : α → Bool)
    (h : ∀ a ∈ l, ¬(p a = true ∧ q a = true)) :
    l.countP (fun a => p a || q a) = l.countP p + l.countP q := by
  induction l with
  | nil => simp
  | cons a t ih =>
    rw [List.countP_cons, List.countP_cons, List.countP_cons,
      ih (fun x hx => h x (List.mem_cons_of_mem _ hx))]
    by_cases hp : p a = true
    · have hq : ¬q a = true := fun hh => h a (List.mem_cons_self _ _) ⟨hp, hh⟩
      simp only [hp, hq, Bool.true_or]
      simp
      omega
    · by_cases hq : q a = true
      · simp only [hq, Bool.or_true]
        simp [hp]
        omega
      · simp only [Bool.or_eq_true]
        simp [hp, hq]

theorem sum_countP_keys (incidents : List Event) (p : Event → Bool) (ks : List GroupKey)
    (hnd : ks.Nodup) :
    (ks.map (fun k => incidents.countP (fun i => p i && decide (i.gkey = k)))).sum
      = incidents.countP (fun i => p i && decide (i.gkey ∈ ks)) := by
  induction ks with
  | nil => simp
  | cons k rest ih =>
    obtain ⟨hk, hrest⟩ := List.nodup_cons.mp hnd
    rw [List.map_cons, List.sum_cons, ih hrest]
    rw [← countP_or_disjoint incidents
      (fun i => p i && decide (i.gkey = k))
      (fun i => p i && decide (i.gkey ∈ rest))
      (by
        intro i _ hcontra
        obtain ⟨h1, h2⟩ := hcontra
        simp only [Bool.and_eq_true, decide_eq_true_eq] at h1 h2
        exact hk (h1.2 ▸ h2.2))]
    apply List.countP_congr
    intro i _
    simp only [Bool.or_eq_true, Bool.and_eq_true, decide_eq_true_eq, List.mem_cons]
    tauto

theorem mem_commonKeys (changes incidents : List Event) (k : GroupKey) :
    k ∈ commonKeys changes incidents
      ↔ (k ∈ groupKeysOf changes ∧ k ∈ groupKeysOf incidents) := by
  unfold commonKeys
  rw [List.mem_filter]
  simp only [decide_eq_true_eq]

theorem nodup_commonKeys (changes incidents : List Event) :
    (commonKeys changes incidents).Nodup := by
  unfold commonKeys groupKeysOf
  exact (List.nodup_dedup _).filter _

theorem lookupCount_raw_eq_spec (changes incidents : List Event) (w : Int)
    (I C : String) :
    lookupCount (raw_correlate changes incidents w) (I, C)
      = specPairCount changes incidents w I C := by
  unfold raw_correlate
  rw [lookupCount_groupFold]
  rw [List.map_congr_left
    (fun k _ => countP_group_eq changes incidents w (I, C) k)]
  rw [sum_countP_keys incidents (contributesSelf changes w (I, C))
    (commonKeys changes incidents) (nodup_commonKeys changes incidents)]
  have hdrop : incidents.countP
      (fun i => contributesSelf changes w (I, C) i
        && decide (i.gkey ∈ commonKeys changes incidents))
      = incidents.countP (contributesSelf changes w (I, C)) := by
    apply List.countP_congr
    intro i hi
    simp only [Bool.and_eq_true, decide_eq_true_eq]
    constructor
    · rintro ⟨h1, -⟩
      exact h1
    · intro h1
      refine ⟨h1, ?_⟩
      rw [mem_commonKeys]
      constructor
      · unfold contributesSelf at h1
        simp only [Bool.and_eq_true, decide_eq_true_eq, List.any_eq_true] at h1
        obtain ⟨-, c, hcmem, ⟨⟨hcg, -⟩, -⟩⟩ := h1
        unfold groupKeysOf
        rw [List.mem_dedup]
        exact List.mem_map.mpr ⟨c, hcmem, hcg⟩
      · unfold groupKeysOf
        rw [List.mem_dedup]
        exact List.mem_map.mpr ⟨i, hi, rfl⟩
  rw [hdrop]
  rfl

/-! ### Merging tables -/

theorem lookupCount_addCount (t : CorrelationTable) (p : PairKey) (n : Nat)
    (q : PairKey) :
    lookupCount (addCount t p n) q
      = if q = p then lookupCount t q + n else lookupCount t q := by
  induction t with
  | nil =>
    rw [show addCount [] p n = [(p, n)] from rfl, lookupCount_cons, lookupCount_nil]
    by_cases h : q = p
    · subst h; simp
    · rw [if_neg h, if_neg (fun hh : p = q => h hh.symm)]
  | cons e rest ih =>
    by_cases he : e.1 = p
    · rw [show addCount (e :: rest) p n = (e.1, e.2 + n) :: rest by simp [addCount, he],
        lookupCount_cons, lookupCount_cons]
      by_cases hq : q = p
      · subst hq
        rw [if_pos rfl, if_pos he, if_pos he]
      · have h1 : ¬e.1 = q := fun hh => hq (hh.symm.trans he)
        rw [if_neg hq, if_neg h1, if_neg h1]
    · rw [show addCount (e :: rest) p n = e :: addCount rest p n by simp [addCount, he],
        lookupCount_cons, lookupCount_cons, ih]
      by_cases hq : e.1 = q
      · have hqp : ¬q = p := fun hh => he (hq.trans hh)
        rw [if_pos hq, if_neg hqp, if_pos hq]
      · rw [if_neg hq, if_neg hq]

theorem mem_tableKeys_addCount (t : CorrelationTable) (p : PairKey) (n : Nat)
    (q : PairKey) :
    q ∈ tableKeys (addCount t p n) ↔ q ∈ tableKeys t ∨ q = p := by
  induction t with
  | nil => simp [show addCount [] p n = [(p, n)] from rfl, tableKeys]
  | cons e rest ih =>
    by_cases he : e.1 = p
    · rw [show addCount (e :: rest) p n = (e.1, e.2 + n) :: rest by simp [addCount, he],
        tableKeys_cons, tableKeys_cons]
      simp only [List.mem_cons]
      constructor
      · rintro (h | h)
        · exact Or.inl (Or.inl h)
        · exact Or.inl (Or.inr h)
      · rintro ((h | h) | h)
        · exact Or.inl h
        · exact Or.inr h
        · exact Or.inl (h.trans he.symm)
    · rw [show addCount (e :: rest) p n = e :: addCount rest p n by simp [addCount, he],
        tableKeys_cons, tableKeys_cons]
      simp only [List.mem_cons, ih]
      tauto

theorem lookupCount_addTable (t2 t1 : CorrelationTable) (q : PairKey) :
    lookupCount (addTable t1 t2) q = lookupCount t1 q + sumCounts t2 q := by
  induction t2 generalizing t1 with
  | nil => simp [addTable, sumCounts]
  | cons e rest ih =>
    rw [show addTable t1 (e :: rest) = addTable (addCount t1 e.1 e.2) rest from rfl,
      ih, lookupCount_addCount]
    rw [show sumCounts (e :: rest) q = (if e.1 = q then e.2 else 0) + sumCounts rest q
      from rfl]
    by_cases h : q = e.1
    · rw [if_pos h, if_pos (h ▸ rfl : e.1 = q)]
      omega
    · rw [if_neg h, if_neg (fun hh : e.1 = q => h hh.symm)]
      omega

theorem mem_tableKeys_addTable (t2 t1 : CorrelationTable) (q : PairKey) :
    q ∈ tableKeys (addTable t1 t2) ↔ q ∈ tableKeys t1 ∨ q ∈ tableKeys t2 := by
  induction t2 generalizing t1 with
  | nil => simp [addTable, tableKeys]
  | cons e rest ih =>
    rw [show addTable t1 (e :: rest) = addTable (addCount t1 e.1 e.2) rest from rfl,
      ih, mem_tableKeys_addCount, tableKeys_cons]
    simp only [List.mem_cons]
    tauto

theorem mergeTables_pair_equiv (t1 t2 : CorrelationTable) :
    tablesEquiv (mergeTables [t1, t2]) (mergeTables [t2, t1]) := by
  constructor
  · intro p
    rw [show mergeTables [t1, t2] = addTable (addTable [] t1) t2 from rfl,
      show mergeTables [t2, t1] = addTable (addTable [] t2) t1 from rfl,
      lookupCount_addTable, lookupCount_addTable, lookupCount_addTable,
      lookupCount_addTable, lookupCount_nil]
    omega
  · intro p
    rw [show mergeTables [t1, t2] = addTable (addTable [] t1) t2 from rfl,
      show mergeTables [t2, t1] = addTable (addTable [] t2) t1 from rfl,
      mem_tableKeys_addTable, mem_tableKeys_addTable, mem_tableKeys_addTable,
      mem_tableKeys_addTable]
    simp only [tableKeys, List.map_nil, List.not_mem_nil]
    tauto

theorem groupFold_perm_equiv (changes incidents : List Event) (w : Int)
    (ks ks' : List GroupKey) (hperm : ks.Perm ks') :
    tablesEquiv (groupFold changes incidents w ks)
      (groupFold changes incidents w ks') := by
  constructor
  · intro p
    rw [lookupCount_groupFold, lookupCount_groupFold]
    exact (hperm.map _).sum_eq
  · intro p
    rw [mem_tableKeys_iff_pos (allPositive_groupFold changes incidents w ks) p,
      mem_tableKeys_iff_pos (allPositive_groupFold changes incidents w ks') p,
      lookupCount_groupFold, lookupCount_groupFold, (hperm.map _).sum_eq]

/-! ### Negative windows and dropped groups -/

theorem bruteTitles_neg (chg : List Event) (its w : Int) (hw : w < 0) :
    bruteTitles chg its w = [] := by
  unfold bruteTitles
  rw [show chg.filter (fun c => decide (inWindow its w c)) = [] by
    rw [List.filter_eq_nil_iff]
    intro c _
    simp only [decide_eq_true_eq, inWindow]
    omega]
  rfl

theorem bruteGroup_neg (w : Int) (hw : w < 0) (chg inc : List Event)
    (tbl : CorrelationTable) : bruteGroup w chg inc tbl = tbl := by
  induction inc generalizing tbl with
  | nil => rfl
  | cons i rest ih =>
    rw [show bruteGroup w chg (i :: rest) tbl
        = bruteGroup w chg rest
            ((bruteTitles chg i.timestamp w).foldl (fun t c => incr t (i.title, c)) tbl)
      from rfl]
    rw [bruteTitles_neg chg i.timestamp w hw]
    exact ih tbl

theorem raw_correlate_neg (changes incidents : List Event) (w : Int) (hw : w < 0) :
    raw_correlate changes incidents w = [] := by
  unfold raw_correlate groupFold
  suffices h2 : ∀ (ks : List GroupKey) (tbl : CorrelationTable),
      ks.foldl (fun tbl k =>
        correlateGroup w (sortByTs (eventsOfGroup k changes))
          (sortByTs (eventsOfGroup k incidents)) tbl) tbl = tbl by
    exact h2 _ []
  intro ks
  induction ks with
  | nil => intro tbl; rfl
  | cons k rest ih =>
    intro tbl
    rw [List.foldl_cons,
      correlateGroup_eq_bruteGroup _ _ _ _ (pairwise_sortByTs _) (pairwise_sortByTs _),
      bruteGroup_neg w hw]
    exact ih tbl

theorem dedup_filter_comm {α : Type} [DecidableEq α] (p : α → Bool) (l : List α) :
    (l.filter p).dedup = l.dedup.filter p := by
  induction l with
  | nil => rfl
  | cons x xs ih =>
    by_cases hx : p x = true
    · rw [List.filter_cons_of_pos hx]
      by_cases hmem : x ∈ xs
      · have hmem2 : x ∈ xs.filter p := List.mem_filter.mpr ⟨hmem, hx⟩
        rw [List.dedup_cons_of_mem hmem2, List.dedup_cons_of_mem hmem, ih]
      · have hmem2 : x ∉ xs.filter p := fun hh => hmem (List.mem_filter.mp hh).1
        rw [List.dedup_cons_of_not_mem hmem2, List.dedup_cons_of_not_mem hmem,
          List.filter_cons_of_pos hx, ih]
    · rw [List.filter_cons_of_neg (by simpa using hx)]
      by_cases hmem : x ∈ xs
      · rw [List.dedup_cons_of_mem hmem, ih]
      · rw [List.dedup_cons_of_not_mem hmem,
          List.filter_cons_of_neg (by simpa using hx), ih]

theorem groupKeysOf_filter (evs : List Event) (gk : GroupKey) :
    groupKeysOf (evs.filter (fun e => decide (e.gkey ≠ gk)))
      = (groupKeysOf evs).filter (fun g => decide (g ≠ gk)) := by
  unfold groupKeysOf
  rw [← dedup_filter_comm]
  congr 1
  rw [List.filter_map]
  apply List.map_congr_left
  intro e _
  rfl

theorem commonKeys_filter_ne (changes incidents : List Event) (gk : GroupKey)
    (h : gk ∉ groupKeysOf changes ∨ gk ∉ groupKeysOf incidents) :
    commonKeys (changes.filter (fun e => decide (e.gkey ≠ gk)))
        (incidents.filter (fun e => decide (e.gkey ≠ gk)))
      = commonKeys changes incidents := by
  unfold commonKeys
  rw [groupKeysOf_filter, groupKeysOf_filter, List.filter_filter]
  apply List.filter_congr
  intro k hk
  apply bool_eq_of_iff
  simp only [Bool.and_eq_true, decide_eq_true_eq, List.mem_filter]
  constructor
  · rintro ⟨⟨h1, -⟩, -⟩
    exact h1
  · intro h1
    rcases h with hc | hi
    · have hne : k ≠ gk := fun hh => hc (hh ▸ hk)
      exact ⟨⟨h1, by simpa using hne⟩, by simpa using hne⟩
    · have hne : k ≠ gk := fun hh => hi (hh ▸ h1)
      exact ⟨⟨h1, by simpa using hne⟩, by simpa using hne⟩

theorem raw_correlate_filter_ne (changes incidents : List Event) (w : Int)
    (gk : GroupKey) (h : gk ∉ groupKeysOf changes ∨ gk ∉ groupKeysOf incidents) :
    raw_correlate changes incidents w
      = raw_correlate (changes.filter (fun e => decide (e.gkey ≠ gk)))
          (incidents.filter (fun e => decide (e.gkey ≠ gk))) w := by
  unfold raw_correlate
  rw [commonKeys_filter_ne changes incidents gk h]
  unfold groupFold
  apply foldl_congr_mem
  intro k hkmem acc
  have hkne : k ≠ gk := by
    rcases h with hc | hi
    · intro hh
      exact hc (hh ▸ ((mem_commonKeys changes incidents k).mp hkmem).1)
    · intro hh
      exact hi (hh ▸ ((mem_commonKeys changes incidents k).mp hkmem).2)
  have he1 : eventsOfGroup k (changes.filter (fun e => decide (e.gkey ≠ gk)))
      = eventsOfGroup k changes := by
    unfold eventsOfGroup
    rw [List.filter_filter]
    apply List.filter_congr
    intro e _
    apply bool_eq_of_iff
    simp only [Bool.and_eq_true, decide_eq_true_eq]
    constructor
    · rintro ⟨h1, -⟩
      exact h1
    · intro h1
      exact ⟨h1, fun hh => hkne (h1 ▸ hh)⟩
  have he2 : eventsOfGroup k (incidents.filter (fun e => decide (e.gkey ≠ gk)))
      = eventsOfGroup k incidents := by
    unfold eventsOfGroup
    rw [List.filter_filter]
    apply List.filter_congr
    intro e _
    apply bool_eq_of_iff
    simp only [Bool.and_eq_true, decide_eq_true_eq]
    constructor
    · rintro ⟨h1, -⟩
      exact h1
    · intro h1
      exact ⟨h1, fun hh => hkne (h1 ▸ hh)⟩
  rw [he1, he2]

/-! ### Lemmas about the classification collaborator -/

theorem cacheLookup_nil (k : String) : cacheLookup [] k = none := rfl

theorem cacheLookup_cons (e : String × Option String) (c : LlmCache) (k : String) :
    cacheLookup (e :: c) k = if e.1 = k then some e.2 else cacheLookup c k := by
  by_cases h : e.1 = k
  · rw [if_pos h]
    unfold cacheLookup
    rw [List.find?_cons_of_pos _ (by simpa using h)]
    rfl
  · rw [if_neg h]
    unfold cacheLookup
    rw [List.find?_cons_of_neg _ (by simpa using h)]

theorem cacheLookup_insert (c : LlmCache) (k k2 : String) (v : Option String) :
    cacheLookup (cacheInsert c k v) k2 = if k2 = k then some v else cacheLookup c k2 := by
  induction c with
  | nil =>
    rw [show cacheInsert [] k v = [(k, v)] from rfl, cacheLookup_cons, cacheLookup_nil]
    by_cases h : k2 = k
    · subst h; simp
    · rw [if_neg (fun hh : k = k2 => h hh.symm), if_neg h]
  | cons e rest ih =>
    by_cases he : e.1 = k
    · rw [show cacheInsert (e :: rest) k v = (k, v) :: rest by simp [cacheInsert, he],
        cacheLookup_cons, cacheLookup_cons]
      by_cases hq : k2 = k
      · subst hq
        rw [if_pos rfl, if_pos rfl]
      · rw [if_neg (fun hh : k = k2 => hq hh.symm), if_neg hq,
          if_neg (fun hh : e.1 = k2 => hq (hh.symm.trans he))]
    · rw [show cacheInsert (e :: rest) k v = e :: cacheInsert rest k v
        by simp [cacheInsert, he], cacheLookup_cons, cacheLookup_cons, ih]
      by_cases hq : e.1 = k2
      · have h2 : ¬k2 = k := fun hh => he (hq.trans hh)
        rw [if_pos hq, if_neg h2, if_pos hq]
      · rw [if_neg hq, if_neg hq]

theorem resultsLookup_nil (it : Item) : resultsLookup [] it = none := rfl

theorem resultsLookup_cons (e : Item × Option String) (r : ResultsMap) (it : Item) :
    resultsLookup (e :: r) it = if e.1 = it then some e.2 else resultsLookup r it := by
  by_cases h : e.1 = it
  · rw [if_pos h]
    unfold resultsLookup
    rw [List.find?_cons_of_pos _ (by simpa using h)]
    rfl
  · rw [if_neg h]
    unfold resultsLookup
    rw [List.find?_cons_of_neg _ (by simpa using h)]

theorem resultsLookup_insert (r : ResultsMap) (it it2 : Item) (v : Option String) :
    resultsLookup (resultsInsert r it v) it2
      = if it2 = it then some v else resultsLookup r it2 := by
  induction r with
  | nil =>
    rw [show resultsInsert [] it v = [(it, v)] from rfl, resultsLookup_cons,
      resultsLookup_nil]
    by_cases h : it2 = it
    · subst h; simp
    · rw [if_neg (fun hh : it = it2 => h hh.symm), if_neg h]
  | cons e rest ih =>
    by_cases he : e.1 = it
    · rw [show resultsInsert (e :: rest) it v = (it, v) :: rest
        by simp [resultsInsert, he], resultsLookup_cons, resultsLookup_cons]
      by_cases hq : it2 = it
      · subst hq
        rw [if_pos rfl, if_pos rfl]
      · rw [if_neg (fun hh : it = it2 => hq hh.symm), if_neg hq,
          if_neg (fun hh : e.1 = it2 => hq (hh.symm.trans he))]
    · rw [show resultsInsert (e :: rest) it v = e :: resultsInsert rest it v
        by simp [resultsInsert, he], resultsLookup_cons, resultsLookup_cons, ih]
      by_cases hq : e.1 = it2
      · have h2 : ¬it2 = it := fun hh => he (hq.trans hh)
        rw [if_pos hq, if_neg h2, if_pos hq]
      · rw [if_neg hq, if_neg hq]

theorem classifyStep_hit (oracle : Item → Option String) (st : ClassifyState)
    (item : Item) (lbl : Option String)
    (h : cacheLookup st.cache (itemKey item) = some lbl) :
    classifyStep oracle st item
      = { st with results := resultsInsert st.results item lbl } := by
  show (match cacheLookup st.cache (itemKey item) with
    | some lbl => { st with results := resultsInsert st.results item lbl }
    | none =>
      { cache := cacheInsert st.cache (itemKey item) (oracle item),
        results := resultsInsert st.results item (oracle item) } : ClassifyState) = _
  rw [h]

theorem classifyStep_miss (oracle : Item → Option String) (st : ClassifyState)
    (item : Item) (h : cacheLookup st.cache (itemKey item) = none) :
    classifyStep oracle st item
      = { cache := cacheInsert st.cache (itemKey item) (oracle item),
          results := resultsInsert st.results item (oracle item) } := by
  show (match cacheLookup st.cache (itemKey item) with
    | some lbl => { st with results := resultsInsert st.results item lbl }
    | none =>
      { cache := cacheInsert st.cache (itemKey item) (oracle item),
        results := resultsInsert st.results item (oracle item) } : ClassifyState) = _
  rw [h]

theorem classify_fold_hit (oracle : Item → Option String) (items : List Item)
    (item : Item) (v : Option String) :
    ∀ st : ClassifyState, cacheLookup st.cache (itemKey item) = some v →
      cacheLookup ((items.foldl (classifyStep oracle) st).cache) (itemKey item) = some v
        ∧ (item ∈ items →
            resultsLookup ((items.foldl (classifyStep oracle) st).results) item = some v)
        ∧ (resultsLookup st.results item = some v →
            resultsLookup ((items.foldl (classifyStep oracle) st).results) item = some v) := by
  induction items with
  | nil =>
    intro st hst
    exact ⟨hst, fun h => absurd h (List.not_mem_nil _), fun h => h⟩
  | cons j rest ih =>
    intro st hst
    rcases hjc : cacheLookup st.cache (itemKey j) with _ | lbl
    · have hne : itemKey j ≠ itemKey item := by
        intro hh
        rw [hh, hst] at hjc
        cases hjc
      rw [List.foldl_cons, classifyStep_miss oracle st j hjc]
      have hst2 : cacheLookup (cacheInsert st.cache (itemKey j) (oracle j))
          (itemKey item) = some v := by
        rw [cacheLookup_insert, if_neg (fun hh => hne hh.symm)]
        exact hst
      obtain ⟨ha, hb, hcres⟩ := ih
        { cache := cacheInsert st.cache (itemKey j) (oracle j),
          results := resultsInsert st.results j (oracle j) } hst2
      refine ⟨ha, ?_, ?_⟩
      · intro hmem
        rcases List.mem_cons.mp hmem with rfl | hmem
        · exact absurd rfl hne
        · exact hb hmem
      · intro hres
        apply hcres
        have hji : ¬item = j := fun hh => hne (by rw [hh])
        rw [resultsLookup_insert, if_neg hji]
        exact hres
    · rw [List.foldl_cons, classifyStep_hit oracle st j lbl hjc]
      obtain ⟨ha, hb, hcres⟩ := ih { st with results := resultsInsert st.results j lbl } hst
      refine ⟨ha, ?_, ?_⟩
      · intro hmem
        rcases List.mem_cons.mp hmem with rfl | hmem
        · have hlv : lbl = v := by
            rw [hst] at hjc
            injection hjc with hh
            exact hh.symm
          subst hlv
          apply hcres
          rw [resultsLookup_insert, if_pos rfl]
        · exact hb hmem
      · intro hres
        apply hcres
        by_cases hji : item = j
        · subst hji
          have hlv : lbl = v := by
            rw [hst] at hjc
            injection hjc with hh
            exact hh.symm
          subst hlv
          rw [resultsLookup_insert, if_pos rfl]
        · rw [resultsLookup_insert, if_neg hji]
          exact hres

theorem classify_fold_miss (oracle : Item → Option String) (items : List Item)
    (item : Item) (hfail : oracle item = none) :
    ∀ st : ClassifyState, cacheLookup st.cache (itemKey item) = none →
      (∀ j ∈ items, itemKey j = itemKey item → j = item) →
      item ∈ items →
      cacheLookup ((items.foldl (classifyStep oracle) st).cache) (itemKey item)
          = some none
        ∧ resultsLookup ((items.foldl (classifyStep oracle) st).results) item
          = some none := by
  induction items with
  | nil =>
    intro st _ _ hmem
    exact absurd hmem (List.not_mem_nil _)
  | cons j rest ih =>
    intro st hst huniq hmem
    by_cases hjk : itemKey j = itemKey item
    · have hji : j = item := huniq j (List.mem_cons_self _ _) hjk
      subst hji
      rw [List.foldl_cons, classifyStep_miss oracle st j hst, hfail]
      have hnew : cacheLookup (cacheInsert st.cache (itemKey j) none) (itemKey j)
          = some none := by
        rw [cacheLookup_insert, if_pos rfl]
      obtain ⟨ha, -, hcres⟩ := classify_fold_hit oracle rest j none
        { cache := cacheInsert st.cache (itemKey j) none,
          results := resultsInsert st.results j none } hnew
      refine ⟨ha, hcres ?_⟩
      rw [resultsLookup_insert, if_pos rfl]
    · have hji : ¬item = j := fun hh => hjk (by rw [hh])
      have hmem2 : item ∈ rest := by
        rcases List.mem_cons.mp hmem with hh | hh
        · exact absurd hh hji
        · exact hh
      rcases hjc : cacheLookup st.cache (itemKey j) with _ | lbl
      · rw [List.foldl_cons, classifyStep_miss oracle st j hjc]
        apply ih _ ?_ (fun x hx hk => huniq x (List.mem_cons_of_mem _ hx) hk) hmem2
        rw [cacheLookup_insert, if_neg (fun hh : itemKey item = itemKey j => hjk hh.symm)]
        exact hst
      · rw [List.foldl_cons, classifyStep_hit oracle st j lbl hjc]
        exact ih _ hst (fun x hx hk => huniq x (List.mem_cons_of_mem _ hx) hk) hmem2

theorem classify_fold_total (oracle : Item → Option String) (items : List Item) :
    ∀ (st : ClassifyState) (it : Item),
      (it ∈ items ∨ (resultsLookup st.results it).isSome = true) →
      (resultsLookup ((items.foldl (classifyStep oracle) st).results) it).isSome = true := by
  induction items with
  | nil =>
    intro st it h
    rcases h with h | h
    · exact absurd h (List.not_mem_nil _)
    · exact h
  | cons j rest ih =>
    intro st it h
    have hstep : ∀ lblx : Option String,
        (resultsLookup (resultsInsert st.results j lblx) it).isSome = true
          ∨ (¬it = j ∧ resultsLookup (resultsInsert st.results j lblx) it
              = resultsLookup st.results it) := by
      intro lblx
      by_cases hij : it = j
      · subst hij
        rw [resultsLookup_insert, if_pos rfl]
        exact Or.inl rfl
      · rw [resultsLookup_insert, if_neg hij]
        exact Or.inr ⟨hij, rfl⟩
    rcases hjc : cacheLookup st.cache (itemKey j) with _ | lbl
    · rw [List.foldl_cons, classifyStep_miss oracle st j hjc]
      apply ih
      rcases h with hmem | hsome
      · rcases List.mem_cons.mp hmem with rfl | hmem
        · refine Or.inr ?_
          rw [resultsLookup_insert, if_pos rfl]
          rfl
        · exact Or.inl hmem
      · rcases hstep (oracle j) with hh | ⟨-, hh⟩
        · exact Or.inr hh
        · exact Or.inr (hh ▸ hsome)
    · rw [List.foldl_cons, classifyStep_hit oracle st j lbl hjc]
      apply ih
      rcases h with hmem | hsome
      · rcases List.mem_cons.mp hmem with rfl | hmem
        · refine Or.inr ?_
          rw [resultsLookup_insert, if_pos rfl]
          rfl
        · exact Or.inl hmem
      · rcases hstep lbl with hh | ⟨-, hh⟩
        · exact Or.inr hh
        · exact Or.inr (hh ▸ hsome)

theorem mem_keys_resultsInsert (r : ResultsMap) (it : Item) (v : Option String)
    (x : Item) :
    x ∈ (resultsInsert r it v).map Prod.fst ↔ x ∈ r.map Prod.fst ∨ x = it := by
  induction r with
  | nil => simp [show resultsInsert [] it v = [(it, v)] from rfl]
  | cons e rest ih =>
    by_cases he : e.1 = it
    · rw [show resultsInsert (e :: rest) it v = (it, v) :: rest
        by simp [resultsInsert, he]]
      simp only [List.map_cons, List.mem_cons]
      constructor
      · rintro (h | h)
        · exact Or.inr h
        · exact Or.inl (Or.inr h)
      · rintro ((h | h) | h)
        · exact Or.inl (h.trans he)
        · exact Or.inr h
        · exact Or.inl h
    · rw [show resultsInsert (e :: rest) it v = e :: resultsInsert rest it v
        by simp [resultsInsert, he]]
      simp only [List.map_cons, List.mem_cons, ih]
      tauto

theorem nodup_keys_resultsInsert (r : ResultsMap) (it : Item) (v : Option String)
    (h : (r.map Prod.fst).Nodup) : ((resultsInsert r it v).map Prod.fst).Nodup := by
  induction r with
  | nil => simp [show resultsInsert [] it v = [(it, v)] from rfl]
  | cons e rest ih =>
    rw [List.map_cons, List.nodup_cons] at h
    obtain ⟨hhead, hrest⟩ := h
    by_cases he : e.1 = it
    · rw [show resultsInsert (e :: rest) it v = (it, v) :: rest
        by simp [resultsInsert, he]]
      rw [List.map_cons, List.nodup_cons]
      exact ⟨he ▸ hhead, hrest⟩
    · rw [show resultsInsert (e :: rest) it v = e :: resultsInsert rest it v
        by simp [resultsInsert, he]]
      rw [List.map_cons, List.nodup_cons]
      refine ⟨?_, ih hrest⟩
      intro hmem
      rcases (mem_keys_resultsInsert rest it v e.1).mp hmem with hh | hh
      · exact hhead hh
      · exact he hh

theorem nodup_keys_classify_fold (oracle : Item → Option String) (items : List Item) :
    ∀ st : ClassifyState, (st.results.map Prod.fst).Nodup →
      (((items.foldl (classifyStep oracle) st).results).map Prod.fst).Nodup := by
  induction items with
  | nil => intro st h; exact h
  | cons j rest ih =>
    intro st h
    rcases hjc : cacheLookup st.cache (itemKey j) with _ | lbl
    · rw [List.foldl_cons, classifyStep_miss oracle st j hjc]
      exact ih _ (nodup_keys_resultsInsert _ _ _ h)
    · rw [List.foldl_cons, classifyStep_hit oracle st j lbl hjc]
      exact ih _ (nodup_keys_resultsInsert _ _ _ h)

theorem resultsLookup_eq_of_mem (r : ResultsMap) (h : (r.map Prod.fst).Nodup)
    (it : Item) (v : Option String) (hmem : (it, v) ∈ r) :
    resultsLookup r it = some v := by
  induction r with
  | nil => exact absurd hmem (List.not_mem_nil _)
  | cons e rest ih =>
    rw [List.map_cons, List.nodup_cons] at h
    obtain ⟨hhead, hrest⟩ := h
    rcases List.mem_cons.mp hmem with rfl | hmem2
    · rw [resultsLookup_cons, if_pos rfl]
    · have hne : ¬e.1 = it := by
        intro hh
        apply hhead
        rw [hh]
        exact List.mem_map.mpr ⟨(it, v), hmem2, rfl⟩
      rw [resultsLookup_cons, if_neg hne]
      exact ih hrest hmem2

theorem not_mem_meaningfulSet (r : ResultsMap) (hnodup : (r.map Prod.fst).Nodup)
    (it : Item) (h : resultsLookup r it = some none) : it ∉ meaningfulSet r := by
  intro hmem
  unfold meaningfulSet at hmem
  obtain ⟨e, he, hfst⟩ := List.mem_map.mp hmem
  rw [List.mem_filter] at he
  obtain ⟨hemem, hlbl⟩ := he
  simp only [decide_eq_true_eq] at hlbl
  have hlook : resultsLookup r e.1 = some e.2 :=
    resultsLookup_eq_of_mem r hnodup e.1 e.2 (by simpa using hemem)
  rw [hfst, h] at hlook
  rw [hlbl] at hlook
  cases hlook

theorem lookup_single_pair (a s I C : String) (cts its w : Int) :
    lookupCount (raw_correlate [⟨a, s, C, cts⟩] [⟨a, s, I, its⟩] w) (I, C)
      = if its - w ≤ cts ∧ cts ≤ its then 1 else 0 := by
  rw [lookupCount_raw_eq_spec]
  unfold specPairCount
  rw [List.countP_cons, List.countP_nil, Nat.zero_add]
  by_cases h : its - w ≤ cts ∧ cts ≤ its
  · rw [if_pos h, if_pos ?_]
    simp only [List.any_cons, List.any_nil, Bool.or_false, Bool.and_eq_true,
      decide_eq_true_eq, inWindow, Event.gkey, Prod.mk.injEq, eq_self_iff_true,
      true_and, and_true]
    exact h
  · rw [if_neg h, if_neg ?_]
    simp only [List.any_cons, List.any_nil, Bool.or_false, Bool.and_eq_true,
      decide_eq_true_eq, inWindow, Event.gkey, Prod.mk.injEq, eq_self_iff_true,
      true_and, and_true]
    exact h

/-! ### The claims -/

/-- Claim C1: the incremental sliding-window correlation `raw_correlate`
returns the same CorrelationTable as the brute-force reference that, for
each incident, rescans all changes of the same group and counts each
distinct change title with at least one event in the closed window
`[t - window, t]`; equivalently, the count of pair (I, C) equals the number
of incident instances titled I, over all groups, whose trailing window
contains at least one change titled C in the same group. -/
theorem raw_correlate_eq_bruteForce (changes incidents : List Event) (w : Int) :
    raw_correlate changes incidents w = bruteForceCorrelate changes incidents w
      ∧ ∀ I C : String,
          lookupCount (raw_correlate changes incidents w) (I, C)
            = specPairCount changes incidents w I C :=
  ⟨raw_eq_brute changes incidents w,
    fun I C => lookupCount_raw_eq_spec changes incidents w I C⟩

/-- Claim C2: a change is counted for an incident at time `its` if and only
if its timestamp lies in the closed interval `[its - w, its]`: a change at
exactly `its - w` is included, one strictly before is excluded, one at
exactly `its` is included, one after `its` is excluded (all instances of the
if-and-only-if count formula below, which holds for every window, in
particular every `w ≥ 0`); and with `w = 0` only a change at exactly the
incident's timestamp counts. -/
theorem window_boundaries_closed_interval (a s I C : String) (cts its w : Int) :
    (lookupCount (raw_correlate [⟨a, s, C, cts⟩] [⟨a, s, I, its⟩] w) (I, C)
        = if its - w ≤ cts ∧ cts ≤ its then 1 else 0)
      ∧ (lookupCount (raw_correlate [⟨a, s, C, cts⟩] [⟨a, s, I, its⟩] 0) (I, C)
          = if cts = its then 1 else 0) := by
  refine ⟨lookup_single_pair a s I C cts its w, ?_⟩
  rw [lookup_single_pair a s I C cts its 0]
  apply if_congr ?_ rfl rfl
  omega

/-- Claim C3: when N >= 1 change events sharing one title all fall in an
incident's window, the pair count for that incident rises by exactly 1, not
by N: the window's titles are deduplicated before counting. -/
theorem duplicate_titles_count_once (a s I C : String) (tss : List Int) (its w : Int)
    (hne : tss ≠ []) (hin : ∀ t ∈ tss, its - w ≤ t ∧ t ≤ its) :
    lookupCount
        (raw_correlate (tss.map (fun t => ⟨a, s, C, t⟩)) [⟨a, s, I, its⟩] w) (I, C)
      = 1 := by
  rw [lookupCount_raw_eq_spec]
  unfold specPairCount
  rw [List.countP_cons, List.countP_nil, Nat.zero_add]
  rw [if_pos ?_]
  simp only [Bool.and_eq_true, decide_eq_true_eq, List.any_eq_true]
  refine ⟨by trivial, ?_⟩
  obtain ⟨t0, ht0⟩ := List.exists_mem_of_ne_nil tss hne
  refine ⟨⟨a, s, C, t0⟩, List.mem_map.mpr ⟨t0, ht0, rfl⟩, ?_⟩
  simp only [Bool.and_eq_true, decide_eq_true_eq]
  exact ⟨⟨by trivial, by trivial⟩, hin t0 ht0⟩

/-- Claim C3 witness: three changes titled chg at timestamps 3, 5, 5, all in
the window [2, 6] of one incident at 6, yield a count of exactly 1. -/
theorem duplicate_titles_count_once_witness :
    lookupCount
        (raw_correlate (([3, 5, 5] : List Int).map (fun t => ⟨"a", "s", "chg", t⟩))
          [⟨"a", "s", "inc", 6⟩] 4) ("inc", "chg")
      = 1 :=
  duplicate_titles_count_once "a" "s" "inc" "chg" [3, 5, 5] 6 4 (by decide) (by decide)

/-- Claim C4: a group key present in only one of the two streams contributes
nothing: deleting all its events changes no output, and only keys present in
both streams are in the processed common-key set. -/
theorem single_stream_group_contributes_nothing (changes incidents : List Event)
    (w : Int) (gk : GroupKey)
    (h : gk ∉ groupKeysOf changes ∨ gk ∉ groupKeysOf incidents) :
    raw_correlate changes incidents w
        = raw_correlate (changes.filter (fun e => decide (e.gkey ≠ gk)))
            (incidents.filter (fun e => decide (e.gkey ≠ gk))) w
      ∧ ∀ k : GroupKey, k ∈ commonKeys changes incidents
          ↔ (k ∈ groupKeysOf changes ∧ k ∈ groupKeysOf incidents) :=
  ⟨raw_correlate_filter_ne changes incidents w gk h, mem_commonKeys changes incidents⟩

/-- Claim C4 witness: group (b, s) appears only in the change stream;
removing its events leaves the table unchanged. -/
theorem single_stream_group_contributes_nothing_witness :
    raw_correlate [⟨"a", "s", "x", 1⟩, ⟨"b", "s", "y", 2⟩] [⟨"a", "s", "i", 3⟩] 5
      = raw_correlate
          (([⟨"a", "s", "x", 1⟩, ⟨"b", "s", "y", 2⟩] : List Event).filter
            (fun e => decide (e.gkey ≠ ("b", "s"))))
          (([⟨"a", "s", "i", 3⟩] : List Event).filter
            (fun e => decide (e.gkey ≠ ("b", "s")))) 5 :=
  (single_stream_group_contributes_nothing
    [⟨"a", "s", "x", 1⟩, ⟨"b", "s", "y", 2⟩] [⟨"a", "s", "i", 3⟩] 5 ("b", "s")
    (Or.inr (by decide))).1

/-- Claim C5: merging correlation tables is commutative
(`merge [t1, t2]` is dictionary-equal to `merge [t2, t1]`), and the
final table is independent of the order in which the groups are
processed: permuting the key list of the group fold yields a
dictionary-equal table. -/
theorem merge_commutative_and_order_independent :
    (∀ t1 t2 : CorrelationTable,
        tablesEquiv (mergeTables [t1, t2]) (mergeTables [t2, t1]))
      ∧ ∀ (changes incidents : List Event) (w : Int) (ks ks2 : List GroupKey),
          ks.Perm ks2 →
            tablesEquiv (groupFold changes incidents w ks)
              (groupFold changes incidents w ks2) :=
  ⟨mergeTables_pair_equiv,
    fun changes incidents w ks ks2 h => groupFold_perm_equiv changes incidents w ks ks2 h⟩

/-- Claim C5 witness: processing the two groups of a concrete input in the
two possible orders yields dictionary-equal tables. -/
theorem merge_commutative_and_order_independent_witness :
    tablesEquiv
      (groupFold [⟨"a", "s", "x", 1⟩, ⟨"b", "s", "y", 2⟩]
        [⟨"a", "s", "i", 3⟩, ⟨"b", "s", "j", 3⟩] 5 [("a", "s"), ("b", "s")])
      (groupFold [⟨"a", "s", "x", 1⟩, ⟨"b", "s", "y", 2⟩]
        [⟨"a", "s", "i", 3⟩, ⟨"b", "s", "j", 3⟩] 5 [("b", "s"), ("a", "s")]) :=
  merge_commutative_and_order_independent.2
    [⟨"a", "s", "x", 1⟩, ⟨"b", "s", "y", 2⟩]
    [⟨"a", "s", "i", 3⟩, ⟨"b", "s", "j", 3⟩] 5
    [("a", "s"), ("b", "s")] [("b", "s"), ("a", "s")] (by decide)

/-- Claim C6 counterexample: on an invariant-violating input — changes out
of timestamp order and a negative window — `raw_correlate` does not reject
the call or signal anything: it silently returns a count table (here the
empty one).  The claim that such inputs are rejected at the boundary is
false of the code, which validates nothing, sorts unsorted input itself,
and produces a normal table for a negative window. -/
theorem precondition_violations_not_rejected_counterexample :
    raw_correlate [⟨"a", "s", "deploy", 5⟩, ⟨"a", "s", "migrate", 3⟩]
      [⟨"a", "s", "outage", 4⟩] (-1) = [] := by
  decide

/-- Claim C6 amended: `raw_correlate` performs no precondition validation:
unsorted per-group input is accepted (it sorts each group itself at
solution.py:179-180), and a negative window duration is accepted and
silently yields the empty correlation table. -/
theorem negative_window_returns_empty_table (changes incidents : List Event)
    (w : Int) (hw : w < 0) : raw_correlate changes incidents w = [] :=
  raw_correlate_neg changes incidents w hw

/-- Claim C6 amended witness: a concrete run with window -2 silently
returns the empty table. -/
theorem negative_window_returns_empty_table_witness :
    raw_correlate [⟨"u", "v", "chg", 7⟩] [⟨"u", "v", "inc", 7⟩] (-2) = [] :=
  negative_window_returns_empty_table [⟨"u", "v", "chg", 7⟩] [⟨"u", "v", "inc", 7⟩]
    (-2) (by decide)

/-- Claim C7: degraded errors never abort the run: a corrupt cache file is
treated exactly as an absent one (empty cache); every item of the batch
still receives a classification result; and an item whose oracle call fails
(and is not already cached) gets the null label and is excluded from the
MEANINGFUL accepted set. -/
theorem degraded_errors_do_not_abort (items : List Item)
    (oracle : Item → Option String) (f : CacheFile) (raw : String) (item : Item)
    (hmem : item ∈ items)
    (hkey : ∀ j ∈ items, itemKey j = itemKey item → j = item)
    (hcache : cacheLookup (load_cache f) (itemKey item) = none)
    (hfail : oracle item = none) :
    classify_with_llm items oracle (.corrupt raw) = classify_with_llm items oracle .missing
      ∧ (∀ it ∈ items,
          (resultsLookup (classify_with_llm items oracle f).1 it).isSome = true)
      ∧ resultsLookup (classify_with_llm items oracle f).1 item = some none
      ∧ item ∉ meaningfulSet (classify_with_llm items oracle f).1 := by
  refine ⟨rfl, ?_, ?_, ?_⟩
  · intro it hit
    exact classify_fold_total oracle items
      { cache := load_cache f, results := [] } it (Or.inl hit)
  · exact (classify_fold_miss oracle items item hfail
      { cache := load_cache f, results := [] } hcache hkey hmem).2
  · apply not_mem_meaningfulSet
    · exact nodup_keys_classify_fold oracle items
        { cache := load_cache f, results := [] } List.nodup_nil
    · exact (classify_fold_miss oracle items item hfail
        { cache := load_cache f, results := [] } hcache hkey hmem).2

/-- Claim C7 witness: with a batch of one title whose oracle call fails and
a missing cache, the run completes, labels the item null, and excludes it
from the accepted set. -/
theorem degraded_errors_do_not_abort_witness :
    resultsLookup
        (classify_with_llm [Sum.inl ("db-upgrade")] (fun _ => none) CacheFile.missing).1
        (Sum.inl ("db-upgrade")) = some none
      ∧ (Sum.inl ("db-upgrade") : Item) ∉ meaningfulSet
          (classify_with_llm [Sum.inl ("db-upgrade")] (fun _ => none) CacheFile.missing).1 := by
  have h := degraded_errors_do_not_abort [Sum.inl ("db-upgrade")] (fun _ => none)
    CacheFile.missing "garbled" (Sum.inl ("db-upgrade")) (List.mem_cons_self _ _)
    (fun j hj _ => List.mem_singleton.mp hj) rfl rfl
  exact ⟨h.2.2.1, h.2.2.2⟩

/-- Claim C9: when the oracle call for an uncached item fails, the null
label is stored under the item's cache key in the persisted cache, and any
later run started from that cache serves the cached null for the item —
whatever its oracle would answer — so the failure is never retried. -/
theorem oracle_failure_cached_never_retried (items : List Item)
    (oracle : Item → Option String) (f : CacheFile) (item : Item)
    (hmem : item ∈ items)
    (hkey : ∀ j ∈ items, itemKey j = itemKey item → j = item)
    (hcache : cacheLookup (load_cache f) (itemKey item) = none)
    (hfail : oracle item = none) :
    cacheLookup (classify_with_llm items oracle f).2 (itemKey item) = some none
      ∧ ∀ (oracle2 : Item → Option String) (items2 : List Item), item ∈ items2 →
          resultsLookup
              (classify_with_llm items2 oracle2
                (.wellFormed (classify_with_llm items oracle f).2)).1 item
            = some none := by
  have h1 := classify_fold_miss oracle items item hfail
    { cache := load_cache f, results := [] } hcache hkey hmem
  refine ⟨h1.1, ?_⟩
  intro oracle2 items2 hmem2
  have h2 := classify_fold_hit oracle2 items2 item none
    { cache := load_cache (.wellFormed (classify_with_llm items oracle f).2),
      results := [] } h1.1
  exact h2.2.1 hmem2

/-- Claim C9 witness: the failure for title t is cached as null, and a
second run whose oracle would answer MEANINGFUL is still served the cached
null. -/
theorem oracle_failure_cached_never_retried_witness :
    cacheLookup (classify_with_llm [Sum.inl ("t")] (fun _ => none) CacheFile.missing).2
        (itemKey (Sum.inl ("t"))) = some none
      ∧ resultsLookup
          (classify_with_llm [Sum.inl ("t")] (fun _ => some ("MEANINGFUL"))
            (.wellFormed
              (classify_with_llm [Sum.inl ("t")] (fun _ => none) CacheFile.missing).2)).1
          (Sum.inl ("t")) = some none := by
  have h := oracle_failure_cached_never_retried [Sum.inl ("t")] (fun _ => none)
    CacheFile.missing (Sum.inl ("t")) (List.mem_cons_self _ _)
    (fun j hj _ => List.mem_singleton.mp hj) rfl rfl
  exact ⟨h.1, h.2 (fun _ => some ("MEANINGFUL")) [Sum.inl ("t")] (List.mem_cons_self _ _)⟩

/-- Claim C10: every entry of the table returned by `raw_correlate` has a
strictly positive count, and a PairKey is present among the table's keys if
and only if its count is positive — no zero-count pairs are emitted. -/
theorem table_counts_strictly_positive (changes incidents : List Event) (w : Int) :
    allPositive (raw_correlate changes incidents w)
      ∧ ∀ p : PairKey, p ∈ tableKeys (raw_correlate changes incidents w)
          ↔ 0 < lookupCount (raw_correlate changes incidents w) p := by
  have hpos : allPositive (raw_correlate changes incidents w) :=
    allPositive_groupFold changes incidents w (commonKeys changes incidents)
  exact ⟨hpos, fun p => mem_tableKeys_iff_pos hpos p⟩
